import Mathlib

/-!
Verification of the FORGE streaming response handler
(`StreamingResponseHandler`), a line-oriented incremental parser that
extracts file artifacts and explanation prose from markdown-like LLM
output.  Text is modelled as `List Char`; the handler's mutable fields
become a `HandlerState` record, and every method becomes a pure state
transformer.  The JavaScript regular expressions used by the source are
modelled by explicit character-list functions whose behaviour matches
the engine's leftmost / greedy / lazy matching on the relevant inputs
(ASCII whitespace and word characters).
-/

namespace Forge

/-- JavaScript `\s` restricted to the ASCII range (space, tab, newline,
carriage return, vertical tab, form feed). -/
def isWS (c : Char) : Bool :=
  c = (' ') || c = ('\t') || c = ('\n') || c = ('\r') ||
  c = (Char.ofNat 11) || c = (Char.ofNat 12)

/-- JavaScript `\w`: ASCII letters, digits and underscore. -/
def isWordChar (c : Char) : Bool :=
  (('a') ≤ c && c ≤ ('z')) || (('A') ≤ c && c ≤ ('Z')) ||
  (('0') ≤ c && c ≤ ('9')) || c = ('_')

/-- Drop trailing whitespace (used to model the right half of
JavaScript `String.prototype.trim`). -/
def dropEndWS (l : List Char) : List Char :=
  (l.reverse.dropWhile isWS).reverse

/-- Model of JavaScript `String.prototype.trim`: remove leading and
trailing whitespace. -/
def jsTrim (l : List Char) : List Char :=
  dropEndWS (l.dropWhile isWS)

/-- Model of JavaScript `String.prototype.split('\n')`: always returns a
non-empty list of newline-free pieces. -/
def splitNl : List Char → List (List Char)
  | [] => [[]]
  | c :: rest =>
    if c = ('\n') then [] :: splitNl rest
    else
      match splitNl rest with
      | [] => [[c]]
      | h :: t => (c :: h) :: t

/-- Last element of a list with a default, mirroring
`lines.pop() || ''` on the non-empty result of a split. -/
def lastD {α : Type} : List α → α → α
  | [], d => d
  | [a], _ => a
  | _ :: b :: rest, d => lastD (b :: rest) d

/-- ASCII lower-casing, modelling the effect of the regex `i` flag and
`toLowerCase` on the ASCII identifiers that occur in the source. -/
def asciiLower (c : Char) : Char :=
  if (('A') ≤ c && c ≤ ('Z')) then Char.ofNat (c.toNat + 32) else c

/-- Strip the leading comment marker recognised by
`filePathPattern = /^(?:\/\/|#|\/\*)\s*(?:File:|Path:)?\s*(.+?)(?:\*\/)?$/i`:
`//`, `#` or a block-comment opener, alternatives tried in that order. -/
def commentRest (t : List Char) : Option (List Char) :=
  if (("//").data).isPrefixOf t then some (t.drop 2)
  else if (("#").data).isPrefixOf t then some (t.drop 1)
  else if (("/*").data).isPrefixOf t then some (t.drop 2)
  else none

/-- Strip an optional case-insensitive `File:` / `Path:` label, the
`(?:File:|Path:)?` group of `filePathPattern`. -/
def labelStrip (s : List Char) : Option (List Char) :=
  if (s.take 5).map asciiLower = (("file:").data) ∨
     (s.take 5).map asciiLower = (("path:").data) then
    some (s.drop 5)
  else none

/-- JavaScript line terminators in the ASCII range: `.` in a regular
expression never matches them (while `\s` does match `\r` and `\n`). -/
def isLineTerm (c : Char) : Bool :=
  c = ('\r') || c = ('\n')

/-- Result of `\s*` followed by a mandatory dot-based capture reaching
the anchor, under backtracking: `W` is the maximal whitespace run the
`\s*` first consumed and `rest` the residue.  If the residue is
non-empty the capture must cover all of it, which works exactly when it
contains no line terminator (giving whitespace back cannot remove one);
if the residue is empty, backtracking gives the capture the final
whitespace character, provided that character is not itself a line
terminator. -/
def tailCapture (W rest : List Char) : Option (List Char) :=
  if rest.isEmpty then
    if W.isEmpty then none
    else if isLineTerm (lastD W (' ')) then none
    else some [lastD W (' ')]
  else if rest.any isLineTerm then none
  else some rest

/-- Behaviour of the lazy capture `(.+?)(?:\*\/)?$` on a non-empty
string: the shortest non-empty prefix whose remainder is `\x22*/\x22` or
empty, i.e. one trailing block-comment closer is removed when the rest
would still be non-empty. -/
def stripClose (u : List Char) : List Char :=
  if 3 ≤ u.length ∧ (("*/").data).isSuffixOf u then u.dropLast.dropLast
  else u

/-- Capture group of `filePathPattern` applied to a line, `none` when
the pattern does not match.  The engine first tries the optional
`File:`/`Path:` label at the position after the maximal leading `\s*`
run; within each alternative the mandatory capture `(.+?)(?:\*\/)?$`
must reach the anchor with dot-matchable characters only (no line
terminators), whitespace runs backtracking as modelled by
`tailCapture`; if the label alternative fails the engine retries
without the label, whose capture then starts at the label text itself. -/
def filePathMatch (t : List Char) : Option (List Char) :=
  match commentRest t with
  | none => none
  | some r =>
    let W := r.takeWhile isWS
    let rest1 := r.dropWhile isWS
    let labelResult : Option (List Char) :=
      match labelStrip rest1 with
      | some r1 =>
        let W2 := r1.takeWhile isWS
        let rest2 := r1.dropWhile isWS
        (tailCapture W2 rest2).map stripClose
      | none => none
    match labelResult with
    | some cap => some cap
    | none => (tailCapture W rest1).map stripClose

/-- Recognised file extensions tested by `looksLikeFilePath`. -/
def extList : List (List Char) :=
  [(".ts").data, (".tsx").data, (".js").data, (".jsx").data,
   (".css").data, (".json").data, (".md").data]

/-- Whether the trimmed line ends with one of the recognised
extensions. -/
def endsAnyExt (t : List Char) : Bool :=
  extList.any (fun e => e.isSuffixOf t)

/-- Source `looksLikeFilePath`: pattern test, path separator, or a
recognised extension. -/
def looksLikeFilePath (line : List Char) : Bool :=
  let t := jsTrim line
  (filePathMatch t).isSome || t.contains ('/') || endsAnyExt t

/-- Greedy `\s*(.+)$` on the remainder of a line comment, used by the
fallback `commentPatterns` loop of `extractFilePath`: the capture must
span the residue up to the anchor without crossing a line terminator
(`tailCapture` models the whitespace backtracking). -/
def greedyDotPlus (r : List Char) : Option (List Char) :=
  tailCapture (r.takeWhile isWS) (r.dropWhile isWS)

/-- Test `/\.\w+$/`: ends with a dot followed by at least one word
character. -/
def endsDotWord (p : List Char) : Bool :=
  let w := p.reverse.takeWhile isWordChar
  ¬w.isEmpty && (p.reverse.drop w.length).headD (' ') = ('.')

/-- Capture of `/^\/\*\s*(.+?)\s*\*\/$/` on the text `core` between
the block-comment markers.  The trailing `\s*` can absorb trailing
whitespace (including line terminators), so the capture is the fully
trimmed middle when that is non-empty and terminator-free; for an
all-whitespace middle, backtracking hands the capture the rightmost
character that is not a line terminator. -/
def blockCommentCapture (core : List Char) : Option (List Char) :=
  if core.isEmpty then none
  else if ¬(jsTrim core).isEmpty then
    if (jsTrim core).any isLineTerm then none else some (jsTrim core)
  else
    match core.reverse.dropWhile isLineTerm with
    | [] => none
    | c :: _ => some [c]

/-- Fallback `commentPatterns` loop of `extractFilePath`: the three
patterns are tried in order and a candidate is returned only when it
contains a separator or ends in a dot-extension. -/
def commentLoopExtract (t : List Char) : Option (List Char) :=
  let try1 : Option (List Char) :=
    if (("//").data).isPrefixOf t then
      match greedyDotPlus (t.drop 2) with
      | some cap =>
        let potential := jsTrim cap
        if potential.contains ('/') || endsDotWord potential then some potential
        else none
      | none => none
    else none
  match try1 with
  | some p => some p
  | none =>
    let try2 : Option (List Char) :=
      if (("#").data).isPrefixOf t then
        match greedyDotPlus (t.drop 1) with
        | some cap =>
          let potential := jsTrim cap
          if potential.contains ('/') || endsDotWord potential then some potential
          else none
        | none => none
      else none
    match try2 with
    | some p => some p
    | none =>
      if (("/*").data).isPrefixOf t ∧ (("*/").data).isSuffixOf (t.drop 2) then
        match blockCommentCapture ((t.drop 2).dropLast.dropLast) with
        | some cap =>
          let potential := jsTrim cap
          if potential.contains ('/') || endsDotWord potential then some potential
          else none
        | none => none
      else none

/-- Source `extractFilePath`: pattern capture first, then a bare
separator-containing token without spaces, then the comment-pattern
loop.  Returns the raw string the source would return; the caller's
truthiness test additionally rejects the empty string. -/
def extractFilePath (line : List Char) : Option (List Char) :=
  let t := jsTrim line
  match filePathMatch t with
  | some cap => some (jsTrim cap)
  | none =>
    if t.contains ('/') && !(t.contains (' ')) then some t
    else commentLoopExtract t

/-- Source `normalizeFilePath`: trim, strip one surrounding quote pair,
and prefix `src/` unless the path already starts with a recognised root
or a dot. -/
def normalizeFilePath (path : List Char) : List Char :=
  let n := jsTrim path
  let n1 :=
    match n with
    | [] => []
    | c :: rest => if c = ('"') ∨ c = ('\'') then rest else n
  let n2 :=
    if ¬n1.isEmpty ∧ (lastD n1 (' ') = ('"') ∨ lastD n1 (' ') = ('\'')) then
      n1.dropLast
    else n1
  if ¬(("src/").data).isPrefixOf n2 ∧ ¬(("public/").data).isPrefixOf n2 ∧
     ¬(("prisma/").data).isPrefixOf n2 ∧ ¬(("tests/").data).isPrefixOf n2 ∧
     ¬((".").data).isPrefixOf n2 then
    (("src/").data) ++ n2
  else n2

/-- The source's `langMap` lookup table. -/
def langMap : List (List Char × List Char) :=
  [(("typescript").data, ("typescript").data),
   (("ts").data, ("typescript").data),
   (("tsx").data, ("typescript").data),
   (("javascript").data, ("javascript").data),
   (("js").data, ("javascript").data),
   (("jsx").data, ("javascript").data),
   (("json").data, ("json").data),
   (("css").data, ("css").data),
   (("scss").data, ("scss").data),
   (("html").data, ("html").data),
   (("markdown").data, ("markdown").data),
   (("md").data, ("markdown").data),
   (("prisma").data, ("prisma").data),
   (("sql").data, ("sql").data)]

/-- Source `normalizeLanguage`: `langMap[lang.toLowerCase()] || lang`. -/
def normalizeLanguage (lang : List Char) : List Char :=
  (langMap.lookup (lang.map asciiLower)).getD lang

/-- A finished artifact (`FileGeneration`).  The optional
`purpose` / `patterns` fields are never populated by the handler and
are omitted. -/
structure FileGeneration where
  path : List Char
  content : List Char
  language : List Char
deriving DecidableEq, Repr

/-- The artifact draft held in `this.currentFile`.  The source uses
`Partial<FileGeneration>` but every draft it constructs carries all
three fields. -/
structure CurrentFile where
  path : List Char
  content : List Char
  language : List Char
deriving DecidableEq, Repr

/-- Events emitted through the source's `EventEmitter`. -/
inductive StreamEvent where
  | fileStart (path language : List Char)
  | contentChunk (path chunk : List Char)
  | fileComplete (f : FileGeneration)
  | explanationText (text : List Char)
  | doneSummary (files : List FileGeneration) (explanation : List Char)
deriving DecidableEq, Repr

/-- The handler's line-level mutable fields -- everything except the
carry-over `buffer`, which only `processChunk` and `finalize` touch --
plus the trace of emitted events. -/
structure ParserCore where
  currentFile : Option CurrentFile
  files : List FileGeneration
  explanation : List Char
  inCodeBlock : Bool
  codeBlockLanguage : List Char
  codeBlockBuffer : List Char
  events : List StreamEvent
deriving DecidableEq, Repr

/-- The complete handler state: the carry-over line buffer plus the
line-level fields. -/
structure HandlerState where
  buffer : List Char
  core : ParserCore
deriving DecidableEq, Repr

/-- Line-level fields of a freshly constructed handler. -/
def initialCore : ParserCore :=
  { currentFile := none, files := [], explanation := [],
    inCodeBlock := false, codeBlockLanguage := [], codeBlockBuffer := [],
    events := [] }

/-- State of a freshly constructed `StreamingResponseHandler`. -/
def initialState : HandlerState :=
  { buffer := [], core := initialCore }

/-- Source `finalizeCurrentFile`: push the draft to `files` unless path
or content is empty; in all cases the draft is cleared. -/
def finalizeCurrentFile (st : ParserCore) : ParserCore :=
  match st.currentFile with
  | none => { st with currentFile := none }
  | some cf =>
    if cf.path.isEmpty ∨ cf.content.isEmpty then { st with currentFile := none }
    else
      let f : FileGeneration :=
        { path := cf.path, content := cf.content,
          language := if cf.language.isEmpty then (("text").data) else cf.language }
      { st with files := st.files ++ [f], currentFile := none,
                events := st.events ++ [StreamEvent.fileComplete f] }

/-- Source `finalizeCodeBlock`: without a draft the block buffer is
discarded; otherwise the trimmed buffer becomes the draft's content and
the draft is finalized. -/
def finalizeCodeBlock (st : ParserCore) : ParserCore :=
  match st.currentFile with
  | none => { st with codeBlockBuffer := [] }
  | some cf =>
    let st1 := { st with currentFile := some { cf with content := jsTrim st.codeBlockBuffer } }
    let st2 := finalizeCurrentFile st1
    { st2 with codeBlockBuffer := [] }

/-- Source `startNewFile`: finalize a previous draft with a non-empty
path, then open a new draft with normalized path and language and emit
`file-start`. -/
def startNewFile (path lang : List Char) (st : ParserCore) : ParserCore :=
  let st1 :=
    match st.currentFile with
    | some cf => if ¬cf.path.isEmpty then finalizeCurrentFile st else st
    | none => st
  let cf : CurrentFile :=
    { path := normalizeFilePath path, content := [], language := normalizeLanguage lang }
  { st1 with currentFile := some cf,
             events := st1.events ++ [StreamEvent.fileStart cf.path cf.language] }

/-- In-block fallthrough of `processLine`: append the line to the block
buffer and emit a `content-chunk` when a draft is open. -/
def appendContentLine (line : List Char) (st : ParserCore) : ParserCore :=
  let st1 := { st with codeBlockBuffer := st.codeBlockBuffer ++ line ++ [('\n')] }
  match st1.currentFile with
  | some cf =>
    { st1 with events := st1.events ++ [StreamEvent.contentChunk cf.path (line ++ [('\n')])] }
  | none => st1

/-- Source `processLine`.  Fence open is `/^```(\w+)?/` (a prefix
match), fence close is the exact line made of the delimiter, in-block
lines go through path detection while the block buffer is empty, and
non-blank lines outside a fence are appended to the explanation.  The
method never reads or writes the carry-over buffer, so it acts on
`ParserCore`. -/
def processLine (line : List Char) (st : ParserCore) : ParserCore :=
  if (("```").data).isPrefixOf line ∧ ¬st.inCodeBlock then
    let w := (line.drop 3).takeWhile isWordChar
    { st with inCodeBlock := true,
              codeBlockLanguage := if w.isEmpty then (("text").data) else w,
              codeBlockBuffer := [] }
  else if line = (("```").data) ∧ st.inCodeBlock then
    finalizeCodeBlock { st with inCodeBlock := false }
  else if st.inCodeBlock then
    let detected : Option (List Char) :=
      if st.codeBlockBuffer.isEmpty ∧ looksLikeFilePath line then
        match extractFilePath line with
        | some p => if p.isEmpty then none else some p
        | none => none
      else none
    match detected with
    | some p => startNewFile p st.codeBlockLanguage st
    | none => appendContentLine line st
  else if ¬(jsTrim line).isEmpty then
    { st with explanation := st.explanation ++ line ++ [('\n')],
              events := st.events ++ [StreamEvent.explanationText line] }
  else st

/-- Source `processChunk`: append the chunk to the carry-over buffer,
split on newlines, keep the final piece as the new buffer and process
every completed line in order. -/
def processChunk (st : HandlerState) (chunk : List Char) : HandlerState :=
  let parts := splitNl (st.buffer ++ chunk)
  { buffer := lastD parts [],
    core := parts.dropLast.foldl (fun s l => processLine l s) st.core }

/-- Source `finalize`: process a non-blank trailing buffer as a line,
close a still-open fenced block with content, finalize a still-open
draft, and emit the terminal `done` event.  The buffer itself is not
cleared by the source. -/
def finalize (st : HandlerState) : HandlerState :=
  let c1 := if ¬(jsTrim st.buffer).isEmpty then processLine st.buffer st.core else st.core
  let c2 := if c1.inCodeBlock ∧ ¬c1.codeBlockBuffer.isEmpty then finalizeCodeBlock c1 else c1
  let c3 := if c2.currentFile.isSome then finalizeCurrentFile c2 else c2
  { st with
    core := { c3 with
              events := c3.events ++ [StreamEvent.doneSummary c3.files (jsTrim c3.explanation)] } }

/-- Source `parseCompleteResponse`: one `processChunk` over the whole
text, then `finalize`; the result pairs `getFiles()` with the trimmed
`getExplanation()`. -/
def parseCompleteResponse (text : List Char) : List FileGeneration × List Char :=
  let st := finalize (processChunk initialState text)
  (st.core.files, jsTrim st.core.explanation)

/-- Split a character list at the first occurrence of the fence
delimiter, returning the text before it and the text after it; models
the search for the lazy close in `/```(\w+)?\n([\s\S]*?)```/g`. -/
def firstTripleSplit : List Char → Option (List Char × List Char)
  | [] => none
  | c :: rest =>
    if (("```").data).isPrefixOf (c :: rest) then some ([], (c :: rest).drop 3)
    else
      match firstTripleSplit rest with
      | some (b, a) => some (c :: b, a)
      | none => none

/-- Scan modelling the `while ((match = codeBlockRegex.exec(markdown)))`
loop over `/```(\w+)?\n([\s\S]*?)```/g`: at each position, a match needs
the delimiter, a greedy word run, a newline, and a later delimiter
occurrence; the engine otherwise advances one character, and resumes
after the close of each match.  Returns the `(raw tag, block content)`
capture pairs in match order. -/
def scanBlocks : List Char → List (List Char × List Char)
  | [] => []
  | c :: rest =>
    if (("```").data).isPrefixOf (c :: rest) then
      let r := (c :: rest).drop 3
      let w := r.takeWhile isWordChar
      match hdrop : r.drop w.length with
      | [] => scanBlocks rest
      | d :: body =>
        if d = ('\n') then
          match hsplit : firstTripleSplit body with
          | some (content, after) => (w, content) :: scanBlocks after
          | none => scanBlocks rest
        else scanBlocks rest
    else scanBlocks rest
termination_by l => l.length
decreasing_by
  all_goals first
  | (simp only [List.length_cons]; omega)
  | (have h1 : (d :: body).length ≤ r.length := by
       rw [← hdrop]; simp only [List.length_drop]; omega
     have key : ∀ (l b a : List Char), firstTripleSplit l = some (b, a) →
         a.length + 3 ≤ l.length := by
       intro l
       induction l with
       | nil => intro b a h; simp [firstTripleSplit] at h
       | cons c0 rest0 ih0 =>
         intro b a h
         by_cases hp : (("```").data).isPrefixOf (c0 :: rest0)
         · simp [firstTripleSplit, hp] at h
           obtain ⟨hb, ha⟩ := h
           have hlen : 3 ≤ (c0 :: rest0).length := by
             have := (List.isPrefixOf_iff_prefix.mp hp).length_le
             simpa using this
           subst ha
           simp only [List.length_drop, List.length_cons] at *
           omega
         · simp [firstTripleSplit, hp] at h
           rcases hrec : firstTripleSplit rest0 with _ | ⟨b0, a0⟩
           · rw [hrec] at h; simp at h
           · rw [hrec] at h
             simp at h
             obtain ⟨hb, ha⟩ := h
             have := ih0 b0 a0 hrec
             subst ha
             simp
             omega
     have h2 : after.length + 3 ≤ body.length := key body content after hsplit
     have h3 : r.length ≤ rest.length := by
       simp only [r, List.length_drop, List.length_cons]; omega
     simp only [List.length_cons] at h1 ⊢
     omega)

/-- Path built for a block with no extractable path:
`unknown-${files.length}.${language}`. -/
def unknownPathName (n : Nat) (language : List Char) : List Char :=
  (("unknown-").data) ++ (Nat.repr n).data ++ [('.')] ++ language

/-- Body of the source's `while` loop in `extractFilesFromMarkdown`,
pushing exactly one artifact per matched block. -/
def extractStep (files : List FileGeneration) (block : List Char × List Char) :
    List FileGeneration :=
  let language := if block.1.isEmpty then (("text").data) else block.1
  let content := block.2
  let lines := splitNl content
  let firstLine := jsTrim (lines.headD [])
  match extractFilePath firstLine with
  | some p =>
    if ¬p.isEmpty then
      files ++ [{ path := normalizeFilePath p,
                  content := jsTrim (List.intercalate [('\n')] (lines.drop 1)),
                  language := normalizeLanguage language }]
    else
      files ++ [{ path := unknownPathName files.length language,
                  content := jsTrim content,
                  language := normalizeLanguage language }]
  | none =>
    files ++ [{ path := unknownPathName files.length language,
                content := jsTrim content,
                language := normalizeLanguage language }]

/-- Source `extractFilesFromMarkdown`: fold the loop body over the
regex matches in order, starting from an empty artifact list. -/
def extractFilesFromMarkdown (markdown : List Char) : List FileGeneration :=
  (scanBlocks markdown).foldl extractStep []

/-- Pair every list element with its index, starting at `n`. -/
def withIdx {α : Type} (n : Nat) : List α → List (Nat × α)
  | [] => []
  | a :: l => (n, a) :: withIdx (n + 1) l

/-- The artifact that block number `idx` (0-based, in match order) of
the non-streaming scan produces: a normalized path with the remaining
lines as trimmed content when the first line has an extractable
non-empty path, and otherwise a synthetic `unknown-idx.tag` placeholder
with the whole trimmed block as content. -/
def blockArtifact (idx : Nat) (w content : List Char) : FileGeneration :=
  let language := if w.isEmpty then (("text").data) else w
  let lines := splitNl content
  let firstLine := jsTrim (lines.headD [])
  match extractFilePath firstLine with
  | some p =>
    if ¬p.isEmpty then
      { path := normalizeFilePath p,
        content := jsTrim (List.intercalate [('\n')] (lines.drop 1)),
        language := normalizeLanguage language }
    else
      { path := unknownPathName idx language,
        content := jsTrim content,
        language := normalizeLanguage language }
  | none =>
    { path := unknownPathName idx language,
      content := jsTrim content,
      language := normalizeLanguage language }

/-- The condition under which `processLine` treats an in-block line with
an empty block buffer as path metadata: `looksLikeFilePath` holds and
`extractFilePath` returns a non-empty (truthy) path. -/
def pathRecognized (line : List Char) : Bool :=
  looksLikeFilePath line &&
    (match extractFilePath line with
     | some p => ¬p.isEmpty
     | none => false)

/-- Fence-open marker as the specification words it: the delimiter
optionally followed immediately by a single bare language-tag word and
nothing else. -/
def specFenceOpenOnly (line : List Char) : Bool :=
  (("```").data).isPrefixOf line && (line.drop 3).all isWordChar

/-- Language tag the fence-open branch records: the maximal word run
after the delimiter, defaulting to `text`. -/
def fenceTag (line : List Char) : List Char :=
  let w := (line.drop 3).takeWhile isWordChar
  if w.isEmpty then (("text").data) else w

/-- Blank-line-only trimming as the specification words it: remove
leading and trailing blank lines of the accumulated block buffer and
nothing else. -/
def specBlankLineTrim (buffer : List Char) : List Char :=
  let lines := splitNl buffer
  let lines1 := lines.dropWhile (fun l => (jsTrim l).isEmpty)
  let lines2 := (lines1.reverse.dropWhile (fun l => (jsTrim l).isEmpty)).reverse
  List.intercalate [('\n')] lines2

/-- The example input of the specification: a prose line, a blank line,
a typescript fence whose first line is a path comment, one code line, a
closing fence, a blank line and a final prose line. -/
def exampleInput : List Char :=
  ("Here is the plan.\n\n```typescript\n// src/components/Button.tsx\nexport function Button() \x7b return null \x7d\n```\n\nDone.").data

/-- States reachable from a freshly constructed handler by any
sequence of `processChunk` and `finalize` calls. -/
inductive Reachable : HandlerState → Prop where
  | init : Reachable initialState
  | chunk (s : HandlerState) (c : List Char) : Reachable s → Reachable (processChunk s c)
  | fin (s : HandlerState) : Reachable s → Reachable (finalize s)

/-! ### Elementary lemmas about `lastD`, `dropLast` and `splitNl` -/

theorem lastD_cons_cons {α : Type} (a b : α) (l : List α) (d : α) :
    lastD (a :: b :: l) d = lastD (b :: l) d := rfl

theorem lastD_irrel {α : Type} :
    ∀ (l : List α), l ≠ [] → ∀ (d d' : α), lastD l d = lastD l d'
  | [], h => absurd rfl h
  | [_], _ => fun _ _ => rfl
  | _ :: b :: rest, _ => fun d d' => lastD_irrel (b :: rest) (by simp) d d'

theorem lastD_mem {α : Type} :
    ∀ (l : List α), l ≠ [] → ∀ (d : α), lastD l d ∈ l
  | [], h => absurd rfl h
  | [a], _ => fun _ => by simp [lastD]
  | a :: b :: rest, _ => fun d => by
      rw [lastD_cons_cons]
      exact List.mem_cons_of_mem a (lastD_mem (b :: rest) (by simp) d)

theorem lastD_append {α : Type} :
    ∀ (l₁ l₂ : List α), l₂ ≠ [] → ∀ (d : α), lastD (l₁ ++ l₂) d = lastD l₂ d := by
  intro l₁
  induction l₁ with
  | nil => intro l₂ _ d; rfl
  | cons a l₁ ih =>
    intro l₂ h d
    have hne : l₁ ++ l₂ ≠ [] := by simp [h]
    match hl : l₁ ++ l₂ with
    | [] => exact absurd hl hne
    | b :: rest =>
      rw [List.cons_append, hl, lastD_cons_cons, ← hl, ih l₂ h d]

theorem dropLast_cons_ne {α : Type} (a : α) (l : List α) (h : l ≠ []) :
    (a :: l).dropLast = a :: l.dropLast := by
  match l with
  | [] => exact absurd rfl h
  | b :: rest => rfl

theorem dropLast_append_ne {α : Type} :
    ∀ (l₁ l₂ : List α), l₂ ≠ [] → (l₁ ++ l₂).dropLast = l₁ ++ l₂.dropLast := by
  intro l₁
  induction l₁ with
  | nil => intro l₂ _; rfl
  | cons a l₁ ih =>
    intro l₂ h
    rw [List.cons_append, dropLast_cons_ne a (l₁ ++ l₂) (by simp [h]),
        ih l₂ h, List.cons_append]

theorem splitNl_ne_nil : ∀ (l : List Char), splitNl l ≠ []
  | [] => by simp [splitNl]
  | c :: rest => by
    by_cases h : c = ('\n')
    · simp [splitNl, h]
    · simp only [splitNl, if_neg h]
      match hr : splitNl rest with
      | [] => simp
      | h' :: t => simp

theorem splitNl_cons_nl (l : List Char) : splitNl (('\n') :: l) = [] :: splitNl l := by
  simp [splitNl]

theorem splitNl_cons_ne (c : Char) (h : c ≠ ('\n')) (l : List Char) :
    splitNl (c :: l) = (c :: (splitNl l).headD []) :: (splitNl l).tail := by
  simp only [splitNl, if_neg h]
  match hr : splitNl l with
  | [] => exact absurd hr (splitNl_ne_nil l)
  | h' :: t => rfl

/-- Key compositionality property of line splitting: splitting `x ++ b`
is splitting `x`, keeping all its complete lines, and re-splitting its
final (incomplete) piece extended by `b`. -/
theorem splitNl_append :
    ∀ (x b : List Char),
      splitNl (x ++ b) =
        (splitNl x).dropLast ++ splitNl (lastD (splitNl x) [] ++ b) := by
  intro x
  induction x with
  | nil => intro b; simp [splitNl, lastD]
  | cons c x ih =>
    intro b
    by_cases hc : c = ('\n')
    · subst hc
      rw [List.cons_append, splitNl_cons_nl, splitNl_cons_nl, ih b]
      have hne := splitNl_ne_nil x
      rw [dropLast_cons_ne _ _ hne, List.cons_append]
      congr 2
      match hx : splitNl x with
      | [] => exact absurd hx hne
      | h' :: t => rfl
    · rw [List.cons_append, splitNl_cons_ne c hc (x ++ b), splitNl_cons_ne c hc x, ih b]
      rcases hx : splitNl x with _ | ⟨h', t⟩
      · exact absurd hx (splitNl_ne_nil x)
      · rcases t with _ | ⟨t', ts⟩
        · simp only [List.dropLast_single, List.nil_append, List.headD_cons,
            List.tail_cons, lastD]
          rw [List.cons_append, splitNl_cons_ne c hc (h' ++ b)]
        · simp only [List.dropLast_cons₂, List.cons_append, List.headD_cons,
            List.tail_cons, lastD_cons_cons]

/-! ### Chunk compositionality -/

/-- Feeding two chunks one after the other is the same as feeding their
concatenation: the heart of chunk-boundary invariance. -/
theorem processChunk_append (s : HandlerState) (a b : List Char) :
    processChunk (processChunk s a) b = processChunk s (a ++ b) := by
  have hS2 := splitNl_ne_nil (lastD (splitNl (s.buffer ++ a)) [] ++ b)
  simp only [processChunk]
  rw [← List.append_assoc, splitNl_append (s.buffer ++ a) b, lastD_append _ _ hS2,
    dropLast_append_ne _ _ hS2, List.foldl_append]

/-- Folding `processChunk` over a non-empty fragment list equals one
`processChunk` of the concatenation. -/
theorem foldl_processChunk_join :
    ∀ (frags : List (List Char)) (s : HandlerState), frags ≠ [] →
      List.foldl processChunk s frags = processChunk s frags.flatten := by
  intro frags
  induction frags with
  | nil => intro s h; exact absurd rfl h
  | cons f rest ih =>
    intro s _
    cases rest with
    | nil => simp
    | cons g rest' =>
      rw [List.foldl_cons, ih (processChunk s f) (by simp), processChunk_append]
      simp

/-! ### Branch characterizations of the line processor -/

theorem processLine_open (s : ParserCore) (line : List Char)
    (h : s.inCodeBlock = false)
    (hp : (("```").data).isPrefixOf line = true) :
    processLine line s =
      { s with inCodeBlock := true, codeBlockLanguage := fenceTag line,
               codeBlockBuffer := [] } := by
  simp [processLine, hp, h, fenceTag]

theorem processLine_outside_stays (s : ParserCore) (line : List Char)
    (h : s.inCodeBlock = false)
    (hp : (("```").data).isPrefixOf line = false) :
    (processLine line s).inCodeBlock = false := by
  have hne : line ≠ (("```").data) := by
    intro he
    rw [he] at hp
    simp [List.isPrefixOf_iff_prefix] at hp
  by_cases hj : (jsTrim line).isEmpty <;>
    simp [processLine, hp, h, hne, hj]

theorem processLine_inBlock_append (s : ParserCore) (line : List Char)
    (h1 : s.inCodeBlock = true) (h2 : line ≠ (("```").data))
    (h3 : s.codeBlockBuffer = [] → pathRecognized line = false) :
    processLine line s = appendContentLine line s := by
  by_cases hb : s.codeBlockBuffer = []
  · have hp := h3 hb
    unfold pathRecognized at hp
    by_cases hl : looksLikeFilePath line
    · rw [hl] at hp
      simp only [Bool.true_and] at hp
      cases hfp : extractFilePath line with
      | none => simp [processLine, h1, h2, hfp]
      | some p =>
        rw [hfp] at hp
        have hpe : p.isEmpty := by
          by_contra hne
          simp [hne] at hp
        simp [processLine, h1, h2, hfp, hpe]
    · have hl' : looksLikeFilePath line = false := by simpa using hl
      simp [processLine, h1, h2, hl']
  · have hbne : ¬s.codeBlockBuffer.isEmpty := by
      simpa [List.isEmpty_iff] using hb
    simp [processLine, h1, h2, hbne]

theorem processLine_inBlock_path (s : ParserCore) (line : List Char)
    (h1 : s.inCodeBlock = true) (h2 : line ≠ (("```").data))
    (hb : s.codeBlockBuffer = []) (hp : pathRecognized line = true) :
    processLine line s =
      startNewFile ((extractFilePath line).getD []) s.codeBlockLanguage s := by
  have hbe : s.codeBlockBuffer.isEmpty := by simp [hb]
  unfold pathRecognized at hp
  have hl : looksLikeFilePath line = true := by
    by_contra hc
    have h' : looksLikeFilePath line = false := by simpa using hc
    rw [h'] at hp
    simp at hp
  rw [hl] at hp
  simp only [Bool.true_and] at hp
  cases hfp : extractFilePath line with
  | none => rw [hfp] at hp; simp at hp
  | some p =>
    rw [hfp] at hp
    have hpe : ¬p.isEmpty := by
      by_contra hc
      simp [hc] at hp
    simp [processLine, h1, h2, hbe, hl, hfp, hpe]

theorem appendContentLine_noDraft (line : List Char) (s : ParserCore)
    (h : s.currentFile = none) :
    appendContentLine line s =
      { s with codeBlockBuffer := s.codeBlockBuffer ++ line ++ [('\n')] } := by
  simp [appendContentLine, h]

theorem processLine_close_noDraft (s : ParserCore)
    (h1 : s.inCodeBlock = true) (h2 : s.currentFile = none) :
    processLine (("```").data) s =
      { s with inCodeBlock := false, codeBlockBuffer := [] } := by
  simp [processLine, h1, finalizeCodeBlock, h2]

/-- Folding content lines with no open draft just extends the block
buffer, leaving artifacts, explanation and events untouched. -/
theorem foldl_content_lines (ls : List (List Char)) :
    ∀ (s : ParserCore), s.inCodeBlock = true → s.currentFile = none →
      s.codeBlockBuffer ≠ [] → (∀ l ∈ ls, l ≠ (("```").data)) →
      ls.foldl (fun st l => processLine l st) s =
        { s with codeBlockBuffer :=
            s.codeBlockBuffer ++ (ls.map (fun l => l ++ [('\n')])).flatten } := by
  induction ls with
  | nil => intro s _ _ _ _; simp
  | cons l ls ih =>
    intro s h1 h2 h3 h4
    rw [List.foldl_cons,
      processLine_inBlock_append s l h1 (h4 l (by simp)) (fun hb => absurd hb h3),
      appendContentLine_noDraft l s h2,
      ih { s with codeBlockBuffer := s.codeBlockBuffer ++ l ++ [('\n')] }
        (by simpa using h1) (by simpa using h2) (by simp)
        (fun x hx => h4 x (by simp [hx]))]
    simp [List.append_assoc]

/-! ### Field-preservation lemmas for the finalizers -/

theorem finalizeCurrentFile_currentFile (c : ParserCore) :
    (finalizeCurrentFile c).currentFile = none := by
  cases hcf : c.currentFile with
  | none => simp [finalizeCurrentFile, hcf]
  | some cf =>
    simp only [finalizeCurrentFile, hcf]
    split_ifs <;> rfl

theorem finalizeCurrentFile_inCodeBlock (c : ParserCore) :
    (finalizeCurrentFile c).inCodeBlock = c.inCodeBlock := by
  cases hcf : c.currentFile with
  | none => simp [finalizeCurrentFile, hcf]
  | some cf =>
    simp only [finalizeCurrentFile, hcf]
    split_ifs <;> rfl

theorem finalizeCodeBlock_currentFile (c : ParserCore) :
    (finalizeCodeBlock c).currentFile = none := by
  cases hcf : c.currentFile with
  | none => simp [finalizeCodeBlock, hcf]
  | some cf =>
    simp only [finalizeCodeBlock, hcf]
    rw [show ({ finalizeCurrentFile
          { c with currentFile := some { cf with content := jsTrim c.codeBlockBuffer } } with
          codeBlockBuffer := [] } : ParserCore).currentFile =
        (finalizeCurrentFile
          { c with currentFile := some { cf with content := jsTrim c.codeBlockBuffer } }).currentFile
      from rfl]
    exact finalizeCurrentFile_currentFile _

theorem finalizeCodeBlock_inCodeBlock (c : ParserCore) :
    (finalizeCodeBlock c).inCodeBlock = c.inCodeBlock := by
  cases hcf : c.currentFile with
  | none => simp [finalizeCodeBlock, hcf]
  | some cf =>
    simp only [finalizeCodeBlock, hcf]
    rw [show ({ finalizeCurrentFile
          { c with currentFile := some { cf with content := jsTrim c.codeBlockBuffer } } with
          codeBlockBuffer := [] } : ParserCore).inCodeBlock =
        (finalizeCurrentFile
          { c with currentFile := some { cf with content := jsTrim c.codeBlockBuffer } }).inCodeBlock
      from rfl]
    rw [finalizeCurrentFile_inCodeBlock]

theorem startNewFile_inCodeBlock (p lg : List Char) (c : ParserCore) :
    (startNewFile p lg c).inCodeBlock = c.inCodeBlock := by
  cases hcf : c.currentFile with
  | none => simp [startNewFile, hcf]
  | some cf =>
    by_cases hp : cf.path.isEmpty <;>
      simp [startNewFile, hcf, hp, finalizeCurrentFile_inCodeBlock]

theorem appendContentLine_inCodeBlock (line : List Char) (c : ParserCore) :
    (appendContentLine line c).inCodeBlock = c.inCodeBlock := by
  cases hcf : c.currentFile <;> simp [appendContentLine, hcf]

/-! ### The draft-only-inside-a-fence invariant is preserved -/

theorem processLine_inv (line : List Char) (c : ParserCore)
    (h : c.inCodeBlock = false → c.currentFile = none) :
    (processLine line c).inCodeBlock = false → (processLine line c).currentFile = none := by
  by_cases h3 : c.inCodeBlock
  · by_cases h2 : line = (("```").data)
    · intro _
      have hc1 : ¬((("```").data).isPrefixOf line ∧ ¬c.inCodeBlock) := by
        simp [h3]
      simp only [processLine, if_neg hc1, h2, h3, if_pos (And.intro h2 h3)]
      exact finalizeCodeBlock_currentFile _
    · intro hic
      exfalso
      have hline : (processLine line c).inCodeBlock = true := by
        by_cases hb : c.codeBlockBuffer = []
        · by_cases hp : pathRecognized line = true
          · rw [processLine_inBlock_path c line h3 h2 hb hp, startNewFile_inCodeBlock]
            exact h3
          · rw [processLine_inBlock_append c line h3 h2
                (fun _ => by simpa using hp), appendContentLine_inCodeBlock]
            exact h3
        · rw [processLine_inBlock_append c line h3 h2 (fun hbe => absurd hbe hb),
            appendContentLine_inCodeBlock]
          exact h3
      rw [hline] at hic
      exact Bool.noConfusion hic
  · have h3' : c.inCodeBlock = false := by simpa using h3
    by_cases hp : (("```").data).isPrefixOf line
    · intro hic
      rw [processLine_open c line h3' hp] at hic
      simp at hic
    · intro _
      have hne : line ≠ (("```").data) := by
        intro he
        rw [he] at hp
        simp [List.isPrefixOf_iff_prefix] at hp
      have hp' : (("```").data).isPrefixOf line = false := by
        rw [Bool.eq_false_iff]
        exact hp
      by_cases hj : (jsTrim line).isEmpty <;>
        simp [processLine, hp', h3', hne, hj, h h3']

theorem foldl_processLine_inv (ls : List (List Char)) :
    ∀ (c : ParserCore), (c.inCodeBlock = false → c.currentFile = none) →
      ((ls.foldl (fun s l => processLine l s) c).inCodeBlock = false →
        (ls.foldl (fun s l => processLine l s) c).currentFile = none) := by
  induction ls with
  | nil => intro c h; exact h
  | cons l ls ih =>
    intro c h
    rw [List.foldl_cons]
    exact ih _ (processLine_inv l c h)

theorem processChunk_inv (s : HandlerState) (chunk : List Char)
    (h : s.core.inCodeBlock = false → s.core.currentFile = none) :
    (processChunk s chunk).core.inCodeBlock = false →
      (processChunk s chunk).core.currentFile = none := by
  exact foldl_processLine_inv _ _ h

theorem finalize_currentFile (s : HandlerState) :
    (finalize s).core.currentFile = none := by
  unfold finalize
  simp only []
  set c2 := (if ((if ¬(jsTrim s.buffer).isEmpty then processLine s.buffer s.core
      else s.core) : ParserCore).inCodeBlock ∧
      ¬((if ¬(jsTrim s.buffer).isEmpty then processLine s.buffer s.core
        else s.core) : ParserCore).codeBlockBuffer.isEmpty then
      finalizeCodeBlock (if ¬(jsTrim s.buffer).isEmpty then processLine s.buffer s.core
        else s.core)
    else (if ¬(jsTrim s.buffer).isEmpty then processLine s.buffer s.core else s.core))
    with hc2
  by_cases h : c2.currentFile.isSome
  · simp [h, finalizeCurrentFile_currentFile]
  · simp only [h, if_neg]
    simp at h
    simpa using h

theorem finalize_inv (s : HandlerState) :
    (finalize s).core.inCodeBlock = false → (finalize s).core.currentFile = none :=
  fun _ => finalize_currentFile s

/-! ### Claim C1: chunk-boundary invariance -/

/-- C1.  For every way of splitting an input into an ordered sequence
of fragments, feeding the fragments through `processChunk` in order and
then calling `finalize` yields the same artifact list and explanation
string as `parseCompleteResponse` on the whole text. -/
theorem chunk_boundary_invariance (frags : List (List Char)) :
    ((finalize (List.foldl processChunk initialState frags)).core.files,
      jsTrim (finalize (List.foldl processChunk initialState frags)).core.explanation) =
    parseCompleteResponse frags.flatten := by
  cases frags with
  | nil =>
    have h : processChunk initialState [] = initialState := by decide
    simp only [List.foldl_nil, List.flatten_nil]
    unfold parseCompleteResponse
    rw [h]
  | cons f rest =>
    rw [foldl_processChunk_join (f :: rest) initialState (by simp)]
    rfl

/-! ### Claim C2: the worked example of the specification -/

/-- C2 counterexample.  The explanation produced for the example input
is not the spec's `"Here is the plan.\n\nDone."`: blank lines outside a
fence are skipped entirely, so the two prose lines are joined by a
single newline. -/
theorem example_scenario_counterexample :
    (parseCompleteResponse exampleInput).2 ≠ ("Here is the plan.\n\nDone.").data := by
  decide

/-- C2 amended.  Parsing the example input yields exactly one artifact
with path `src/components/Button.tsx`, language `typescript` and
content `export function Button() \x7b return null \x7d`, and the
explanation `"Here is the plan.\nDone."` (prose lines joined by single
newlines because blank lines are dropped). -/
theorem example_scenario_amended :
    parseCompleteResponse exampleInput =
      ([{ path := ("src/components/Button.tsx").data,
          content := ("export function Button() \x7b return null \x7d").data,
          language := ("typescript").data }],
       ("Here is the plan.\nDone.").data) := by
  decide

/-! ### Claim C3: path-detection criteria -/

/-- C4 counterexample.  In a fence whose first line is the recognised
path `// src/a.ts`, the second line `// src/b.ts` is not appended to
the block content: it is treated as path metadata again and replaces
the open draft, so the parse yields an artifact at `src/b.ts` rather
than the spec-predicted artifact at `src/a.ts` containing the second
comment as content. -/
theorem path_scope_counterexample :
    parseCompleteResponse (("```ts\n// src/a.ts\n// src/b.ts\ncode\n```").data) =
      ([{ path := ("src/b.ts").data, content := ("code").data,
          language := ("typescript").data }], []) ∧
    (parseCompleteResponse (("```ts\n// src/a.ts\n// src/b.ts\ncode\n```").data)).1 ≠
      [{ path := ("src/a.ts").data, content := ("// src/b.ts\ncode").data,
         language := ("typescript").data }] := by
  decide

/-- C4 amended.  Inside a fence, path detection applies to every line
processed while the block buffer is still empty -- not only to the
literal first line: a line is appended as content exactly when the
buffer is non-empty or the line is not recognised as a path, and a
recognised path line (with empty buffer) opens a fresh draft via
`startNewFile`, replacing any previous one. -/
theorem path_scope_amended (s : ParserCore) (line : List Char)
    (h1 : s.inCodeBlock = true) (h2 : line ≠ (("```").data)) :
    (s.codeBlockBuffer ≠ [] ∨ pathRecognized line = false →
       processLine line s = appendContentLine line s) ∧
    (s.codeBlockBuffer = [] → pathRecognized line = true →
       processLine line s =
         startNewFile ((extractFilePath line).getD []) s.codeBlockLanguage s) := by
  constructor
  · intro h
    rcases h with hb | hp
    · have hbne : ¬s.codeBlockBuffer.isEmpty := by
        simpa [List.isEmpty_iff] using hb
      simp [processLine, h1, h2, hbne]
    · unfold pathRecognized at hp
      by_cases hl : looksLikeFilePath line
      · rw [hl] at hp
        simp only [Bool.true_and] at hp
        cases hfp : extractFilePath line with
        | none => simp [processLine, h1, h2, hfp]
        | some p =>
          rw [hfp] at hp
          have hpe : p.isEmpty := by
            by_contra hne
            simp [hne] at hp
          simp [processLine, h1, h2, hfp, hpe]
      · have hl' : looksLikeFilePath line = false := by simpa using hl
        simp [processLine, h1, h2, hl']
  · intro hb hp
    have hbe : s.codeBlockBuffer.isEmpty := by simp [hb]
    unfold pathRecognized at hp
    have hl : looksLikeFilePath line = true := by
      by_contra hc
      have h' : looksLikeFilePath line = false := by simpa using hc
      rw [h'] at hp
      simp at hp
    rw [hl] at hp
    simp only [Bool.true_and] at hp
    cases hfp : extractFilePath line with
    | none => rw [hfp] at hp; simp at hp
    | some p =>
      rw [hfp] at hp
      have hpe : ¬p.isEmpty := by
        by_contra hc
        simp [hc] at hp
      simp [processLine, h1, h2, hbe, hl, hfp, hpe]

/-- C4 witness: with a non-empty block buffer, a second path-looking
comment line is appended as plain content. -/
theorem path_scope_witness :
    processLine (("// src/b.ts").data)
        { currentFile := none, files := [], explanation := [], inCodeBlock := true,
          codeBlockLanguage := ("ts").data, codeBlockBuffer := ("x\n").data, events := [] } =
      appendContentLine (("// src/b.ts").data)
        { currentFile := none, files := [], explanation := [], inCodeBlock := true,
          codeBlockLanguage := ("ts").data, codeBlockBuffer := ("x\n").data, events := [] } :=
  (path_scope_amended _ _ (by decide) (by decide)).1 (Or.inl (by decide))

/-! ### Claim C5: fence-open recognition -/

/-- C5 counterexample.  The line made of the delimiter, a tag and
further text after a space is not a fence-open marker by the spec's
criterion (`nothing else` may follow the tag), yet the code enters
fenced-block mode on it: the open regex is an unanchored prefix
match. -/
theorem fence_open_counterexample :
    specFenceOpenOnly (("```typescript extra").data) = false ∧
    (processLine (("```typescript extra").data) initialCore).inCodeBlock = true := by
  decide

/-- C5 amended.  Outside a fence, a completed line causes the parser to
enter fenced-block mode if and only if it starts with the
triple-backtick delimiter, whatever follows; the recorded tag is the
maximal word-character run immediately after the delimiter, defaulting
to `text`, the block buffer is reset, and nothing else changes (no
event is emitted). -/
theorem fence_open_amended (s : ParserCore) (line : List Char)
    (h : s.inCodeBlock = false) :
    (((("```").data).isPrefixOf line) = true →
       processLine line s =
         { s with inCodeBlock := true, codeBlockLanguage := fenceTag line,
                  codeBlockBuffer := [] }) ∧
    (((("```").data).isPrefixOf line) = false →
       (processLine line s).inCodeBlock = false) := by
  constructor
  · intro hp
    simp [processLine, hp, h, fenceTag]
  · intro hp
    have hne : line ≠ (("```").data) := by
      intro he
      rw [he] at hp
      simp [List.isPrefixOf_iff_prefix] at hp
    by_cases hj : (jsTrim line).isEmpty <;>
      simp [processLine, hp, h, hne, hj]

/-- C5 witness: a concrete fence-open line with a tag. -/
theorem fence_open_witness :
    processLine (("```ts").data) initialCore =
      { initialCore with
          inCodeBlock := true,
          codeBlockLanguage := fenceTag (("```ts").data),
          codeBlockBuffer := [] } :=
  (fence_open_amended initialCore (("```ts").data) (by decide)).1 (by decide)

/-! ### Claim C6: finalized content trimming -/

/-- C6 counterexample.  For a fence whose single content line is
indented (`  x`), the accumulated block buffer is `"  x\n"`;
blank-line-only trimming keeps the indentation (`"  x"`), but the code
stores `"x"`: `trim()` also removes the leading whitespace of the first
content line. -/
theorem finalize_trim_counterexample :
    (parseCompleteResponse (("```ts\n// src/a.ts\n  x\n```").data)).1 =
      [{ path := ("src/a.ts").data, content := ("x").data,
         language := ("typescript").data }] ∧
    specBlankLineTrim (("  x\n").data) = ("  x").data ∧
    (("x").data : List Char) ≠ ("  x").data := by
  decide

/-- C6 amended.  The content of every finalized artifact equals the
accumulated block buffer with all leading and trailing whitespace
removed (`trim()`): blank lines around the real content never survive,
but indentation of the first non-blank line and trailing whitespace of
the last are removed as well. -/
theorem finalize_trim_amended (s : ParserCore) (cf : CurrentFile)
    (h1 : s.currentFile = some cf) (h2 : cf.path ≠ [])
    (h3 : jsTrim s.codeBlockBuffer ≠ []) :
    finalizeCodeBlock s =
      { s with
          currentFile := none,
          codeBlockBuffer := [],
          files := s.files ++
            [{ path := cf.path, content := jsTrim s.codeBlockBuffer,
               language := if cf.language.isEmpty then (("text").data) else cf.language }],
          events := s.events ++
            [StreamEvent.fileComplete
              { path := cf.path, content := jsTrim s.codeBlockBuffer,
                language := if cf.language.isEmpty then (("text").data) else cf.language }] } := by
  have hp : ¬cf.path.isEmpty := by simpa [List.isEmpty_iff] using h2
  have hc : ¬(jsTrim s.codeBlockBuffer).isEmpty := by
    simpa [List.isEmpty_iff] using h3
  simp [finalizeCodeBlock, h1, finalizeCurrentFile, hp, hc]

/-- C6 witness: a draft with an indented one-line buffer is finalized
with fully trimmed content. -/
theorem finalize_trim_witness :
    finalizeCodeBlock
        { currentFile := some { path := ("src/a.ts").data, content := [],
                                language := ("typescript").data },
          files := [], explanation := [], inCodeBlock := false,
          codeBlockLanguage := ("ts").data, codeBlockBuffer := ("  x\n").data,
          events := [] } =
      { currentFile := none, codeBlockBuffer := [],
        files := [{ path := ("src/a.ts").data, content := jsTrim (("  x\n").data),
                    language := ("typescript").data }],
        explanation := [], inCodeBlock := false, codeBlockLanguage := ("ts").data,
        events := [StreamEvent.fileComplete
          { path := ("src/a.ts").data, content := jsTrim (("  x\n").data),
            language := ("typescript").data }] } := by
  rw [finalize_trim_amended _ _ rfl (by decide) (by decide)]
  decide

/-! ### Claim C7: no-path blocks are silently dropped by the streaming path -/

/-- C7.  From any outside-a-fence state without an open draft, a fenced
block whose first line is not recognised as a path contributes zero
artifacts, leaks nothing into the explanation, emits no events and
raises no error: every line of the block is accumulated in the block
buffer, which is discarded at the closing fence. -/
theorem no_path_block_dropped (s : ParserCore) (openLine firstLine : List Char)
    (rest : List (List Char))
    (h1 : s.inCodeBlock = false) (h2 : s.currentFile = none)
    (h3 : (("```").data).isPrefixOf openLine = true)
    (h4 : pathRecognized firstLine = false)
    (h5 : firstLine ≠ (("```").data))
    (h6 : ∀ l ∈ rest, l ≠ (("```").data)) :
    (openLine :: firstLine :: (rest ++ [(("```").data)])).foldl
        (fun st l => processLine l st) s =
      { s with
          inCodeBlock := false,
          codeBlockBuffer := [],
          codeBlockLanguage := fenceTag openLine } := by
  rw [List.foldl_cons, processLine_open s openLine h1 h3, List.foldl_cons,
    processLine_inBlock_append _ firstLine rfl h5 (fun _ => h4),
    appendContentLine_noDraft firstLine _ (by exact h2), List.foldl_append,
    foldl_content_lines rest _ rfl (by exact h2) (by simp) h6,
    List.foldl_cons, List.foldl_nil, processLine_close_noDraft _ rfl (by exact h2)]

/-- C7 witness: a fence containing only `console.log(1)` contributes no
artifact, no explanation and no events. -/
theorem no_path_block_dropped_witness :
    ((("```").data) :: (("console.log(1)").data) :: ([] ++ [(("```").data)])).foldl
        (fun st l => processLine l st) initialCore =
      { initialCore with
          inCodeBlock := false,
          codeBlockBuffer := [],
          codeBlockLanguage := fenceTag (("```").data) } :=
  no_path_block_dropped initialCore (("```").data) (("console.log(1)").data) []
    rfl rfl (by decide) (by decide) (by decide) (by simp)

/-! ### Claim C9: the draft exists only inside a fence -/

/-- C9.  In every state reachable from the initial parser state by any
sequence of `processChunk` and `finalize` calls, the active artifact
draft is non-null only while the parser is inside a fenced block:
whenever `inCodeBlock` is false, `currentFile` is `none`. -/
theorem active_draft_invariant (s : HandlerState) (h : Reachable s)
    (hb : s.core.inCodeBlock = false) : s.core.currentFile = none := by
  revert hb
  induction h with
  | init => intro _; rfl
  | chunk s' c _ ih => exact processChunk_inv s' c ih
  | fin s' _ _ => exact finalize_inv s'

/-- C9 witness: the invariant instantiated at the initial state. -/
theorem active_draft_invariant_witness : initialState.core.currentFile = none :=
  active_draft_invariant initialState Reachable.init rfl

/-! ### Claim C10: newline-free chunks only extend the buffer -/

theorem headD_mem {α : Type} (l : List α) (hl : l ≠ []) (d : α) : l.headD d ∈ l := by
  cases l with
  | nil => exact absurd rfl hl
  | cons a t => simp

theorem splitNl_mem_noNl : ∀ (l x : List Char), x ∈ splitNl l → ('\n') ∉ x := by
  intro l
  induction l with
  | nil =>
    intro x hx
    simp [splitNl] at hx
    subst hx
    simp
  | cons c rest ih =>
    intro x hx
    by_cases hc : c = ('\n')
    · subst hc
      rw [splitNl_cons_nl] at hx
      rcases List.mem_cons.mp hx with h | h
      · subst h; simp
      · exact ih x h
    · rw [splitNl_cons_ne c hc rest] at hx
      rcases List.mem_cons.mp hx with h | h
      · subst h
        intro hmem
        rcases List.mem_cons.mp hmem with h' | h'
        · exact hc h'.symm
        · exact ih ((splitNl rest).headD []) (headD_mem _ (splitNl_ne_nil rest) []) h'
      · exact ih x (List.mem_of_mem_tail h)

theorem splitNl_noNl (l : List Char) (h : ('\n') ∉ l) : splitNl l = [l] := by
  induction l with
  | nil => rfl
  | cons c rest ih =>
    have hc : c ≠ ('\n') := by
      intro he
      exact h (by simp [he])
    rw [splitNl_cons_ne c hc rest, ih (fun hm => h (by simp [hm]))]
    rfl

theorem finalize_buffer (s : HandlerState) : (finalize s).buffer = s.buffer := rfl

/-- Every reachable state's carry-over buffer is newline-free: it is
always the final piece of a newline split. -/
theorem reachable_buffer_noNl (s : HandlerState) (h : Reachable s) :
    ('\n') ∉ s.buffer := by
  induction h with
  | init => simp [initialState]
  | chunk s' c _ _ =>
    exact splitNl_mem_noNl (s'.buffer ++ c) _
      (lastD_mem _ (splitNl_ne_nil (s'.buffer ++ c)) [])
  | fin s' _ ih => rw [finalize_buffer]; exact ih

/-- C10.  For every (reachable) parser state and every chunk containing
no newline, `processChunk` appends the chunk to the carry-over buffer
and changes nothing else: artifacts, explanation, fence flag, fence
language, block buffer, draft and emitted events are all untouched. -/
theorem newline_free_chunk_frame (s : HandlerState) (h : Reachable s)
    (chunk : List Char) (hc : ('\n') ∉ chunk) :
    processChunk s chunk = { s with buffer := s.buffer ++ chunk } := by
  have hb : ('\n') ∉ s.buffer := reachable_buffer_noNl s h
  have hnl : ('\n') ∉ s.buffer ++ chunk := by
    intro hm
    rcases List.mem_append.mp hm with h' | h'
    · exact hb h'
    · exact hc h'
  unfold processChunk
  rw [splitNl_noNl _ hnl]
  rfl

/-- C10 witness: a concrete newline-free chunk fed to the initial
state. -/
theorem newline_free_chunk_frame_witness :
    processChunk initialState (("abc").data) =
      { initialState with buffer := ("abc").data } :=
  newline_free_chunk_frame initialState Reachable.init (("abc").data) (by decide)

/-! ### Claim C8: the non-streaming markdown scan drops no block -/

theorem extractStep_eq (files : List FileGeneration) (b : List Char × List Char) :
    extractStep files b = files ++ [blockArtifact files.length b.1 b.2] := by
  rcases b with ⟨w, content⟩
  unfold extractStep blockArtifact
  simp only []
  cases hfp : extractFilePath (jsTrim ((splitNl content).headD [])) with
  | none => simp [hfp]
  | some p => by_cases hpe : p.isEmpty <;> simp [hfp, hpe]

theorem foldl_extractStep (blocks : List (List Char × List Char)) :
    ∀ (acc : List FileGeneration),
      blocks.foldl extractStep acc =
        acc ++ (withIdx acc.length blocks).map
          (fun p => blockArtifact p.1 p.2.1 p.2.2) := by
  induction blocks with
  | nil => intro acc; simp [withIdx]
  | cons b bs ih =>
    intro acc
    rw [List.foldl_cons, extractStep_eq, ih]
    simp [withIdx, List.append_assoc]

/-- C8.  `extractFilesFromMarkdown` never drops a block: each fenced
block found by the non-streaming regex scan yields exactly one
artifact, in match order; block number `idx` yields `blockArtifact idx`
-- a normalized path plus the remaining trimmed lines when the first
line carries an extractable non-empty path, and otherwise the
synthetic `unknown-idx.tag` placeholder built from the running counter
and the block's raw language tag. -/
theorem extract_markdown_blocks (markdown : List Char) :
    extractFilesFromMarkdown markdown =
      (withIdx 0 (scanBlocks markdown)).map
        (fun p => blockArtifact p.1 p.2.1 p.2.2) := by
  unfold extractFilesFromMarkdown
  rw [foldl_extractStep]
  simp

/-! ### Claim C3 (amended): exact characterization of path detection -/

theorem headD_append_ne {α : Type} (A B : List α) (d : α) (h : A ≠ []) :
    (A ++ B).headD d = A.headD d := by
  cases A with
  | nil => exact absurd rfl h
  | cons a t => rfl

end Forge
